import Mathlib

/-!
Shallow embedding of `src/movie_bot.py` (repository `pranavh723/MOVIEEE`).

Character classes model the ASCII range of Python's regex classes `\w`, `\s`,
`\d` and of `str.strip()`; non-ASCII text is out of scope of this development.
Captions and other strings are modelled as `List Char` under a `String` wrapper.
-/

set_option maxHeartbeats 1000000

namespace MovieBot

/-- ASCII digit, the class `\d` used in `normalize_movie_name`. -/
def isDigitChar (c : Char) : Bool :=
  decide (48 ≤ c.toNat) && decide (c.toNat ≤ 57)

/-- ASCII whitespace: the class `\s` and the characters removed by `str.strip()`
(space, tab, newline, carriage return, vertical tab, form feed). -/
def isSpaceChar (c : Char) : Bool :=
  decide (c.toNat = 32) || (decide (9 ≤ c.toNat) && decide (c.toNat ≤ 13))

/-- Word character: the class `\w` (alphanumeric or underscore). -/
def isWordChar (c : Char) : Bool :=
  (decide (48 ≤ c.toNat) && decide (c.toNat ≤ 57)) ||
  (decide (65 ≤ c.toNat) && decide (c.toNat ≤ 90)) ||
  (decide (97 ≤ c.toNat) && decide (c.toNat ≤ 122)) ||
  decide (c.toNat = 95)

/-- One character of `re.sub(r'[^\w\s]', ' ', caption)`: any character that is
neither a word character nor whitespace becomes a space. -/
def repl (c : Char) : Char := if isWordChar c || isSpaceChar c then c else ' '

/-- The maximal whitespace-free runs of a character list, in order. Joining them
with single spaces is exactly `re.sub(r'\s+', ' ', s).strip()`: every interior
whitespace run becomes one space and both ends are trimmed. -/
def words : List Char → List (List Char)
  | [] => []
  | [c] => if isSpaceChar c then [] else [[c]]
  | c :: d :: cs =>
    if isSpaceChar c then words (d :: cs)
    else if isSpaceChar d then [c] :: words (d :: cs)
    else
      match words (d :: cs) with
      | [] => [[c]]
      | w :: ws => (c :: w) :: ws

/-- Join word runs with single spaces. -/
def joinSp : List (List Char) → List Char
  | [] => []
  | [w] => w
  | w :: ws => w ++ ' ' :: joinSp ws

/-- Steps 1 and 2 of `normalize_movie_name`: replace the characters matched by
`[^\w\s]` with spaces, then collapse whitespace runs to single spaces and trim
(`re.sub(r'\s+', ' ', name).strip()`, here as tokenize-and-rejoin). -/
def cleanL (l : List Char) : List Char := joinSp (words (l.map repl))

/-- Number of leading ASCII digits. -/
def leadDigits : List Char → Nat
  | [] => 0
  | c :: cs => if isDigitChar c then leadDigits cs + 1 else 0

/-- Whether the list starts with four digits, i.e. `\d{4}` matches at the head. -/
def first4 : List Char → Bool
  | a :: b :: c :: d :: _ =>
    isDigitChar a && isDigitChar b && isDigitChar c && isDigitChar d
  | _ => false

/-- Leftmost match of `re.search(r'(\d{4})', name)`: the first four consecutive
digits, scanning left to right. -/
def find4 : List Char → Option (List Char)
  | a :: b :: c :: d :: rest =>
    if isDigitChar a && isDigitChar b && isDigitChar c && isDigitChar d then
      some [a, b, c, d]
    else find4 (b :: c :: d :: rest)
  | _ => none

/-- Effect of `re.sub(r'(\d{4})', '', name)`: delete every leftmost,
non-overlapping run of four consecutive digits. -/
def removeAll4 : List Char → List Char
  | a :: b :: c :: d :: rest =>
    if isDigitChar a && isDigitChar b && isDigitChar c && isDigitChar d then
      removeAll4 rest
    else a :: removeAll4 (b :: c :: d :: rest)
  | l => l

/-- Whether four consecutive digits occur anywhere in the list. -/
def has4run : List Char → Bool
  | [] => false
  | c :: cs => first4 (c :: cs) || has4run cs

/-- Drop leading whitespace. -/
def lstrip (l : List Char) : List Char := l.dropWhile isSpaceChar

/-- Python `str.strip()`: drop whitespace from both ends. -/
def pstrip (l : List Char) : List Char :=
  ((lstrip l).reverse.dropWhile isSpaceChar).reverse

/-- Body of `normalize_movie_name` (src/movie_bot.py lines 95-104) on character
lists: clean the caption, search for the first run of four digits; if found,
delete every four-digit run, strip, and append the year in parentheses. -/
def normalizeL (l : List Char) : List Char :=
  match find4 (cleanL l) with
  | none => cleanL l
  | some y => pstrip (removeAll4 (cleanL l)) ++ ' ' :: '(' :: (y ++ [')'])

/-- The function `normalize_movie_name` of src/movie_bot.py. -/
def normalize_movie_name (s : String) : String := String.mk (normalizeL s.data)

/-- Whether `pat` occurs at the start of the second list. -/
def startsWithL : List Char → List Char → Bool
  | [], _ => true
  | _ :: _, [] => false
  | p :: ps, c :: cs => p == c && startsWithL ps cs

/-- Whether `pat` occurs as a contiguous substring of the second list. -/
def hasSubL (pat : List Char) : List Char → Bool
  | [] => startsWithL pat []
  | c :: cs => startsWithL pat (c :: cs) || hasSubL pat cs

/-! ## Catalog store (`DatabaseManager`, table `movies`) -/

/-- One row of the `movies` table: `(normalized_name, details, file_id)`, with
`normalized_name` declared `UNIQUE`. -/
abbrev MovieRow := String × String × String

/-- The keys (column `normalized_name`) of a catalog snapshot. -/
def keys (db : List MovieRow) : List String := db.map (fun r => r.1)

/-- One row of `executemany("INSERT OR IGNORE ...")`: because `normalized_name`
is `UNIQUE`, a row whose key is already present is ignored, otherwise the row is
appended. -/
def insertOne (db : List MovieRow) (r : MovieRow) : List MovieRow :=
  if r.1 ∈ keys db then db else db ++ [r]

/-- Successful path of `DatabaseManager.insert_movies` (lines 84-92): the batch
is inserted row by row with `INSERT OR IGNORE`, then committed. -/
def insert_movies (db : List MovieRow) (batch : List MovieRow) : List MovieRow :=
  batch.foldl insertOne db

/-- The method `DatabaseManager.insert_movies` including its failure behaviour.
`failAt = some i` with `i < batch.length` models `sqlite3.Error` raised while
row `i` of the batch is being processed: the `with sqlite3.connect(...)` block
exits with an exception, so the connection context manager ROLLS BACK the open
transaction (nothing of the batch is committed), and the surrounding
`try/except sqlite3.Error` logs the error and returns. The second component
records whether an exception escapes to the caller (it never does). -/
def insert_movies_run (db : List MovieRow) (batch : List MovieRow)
    (failAt : Option Nat) : List MovieRow × Bool :=
  match failAt with
  | some i => if i < batch.length then (db, false) else (insert_movies db batch, false)
  | none => (insert_movies db batch, false)

/-! ## Metadata resolver (`fetch_movie_details_from_omdb`, lines 106-127) -/

/-- Fields of a parsed OMDb JSON answer with `Response == "True"`; a missing
field models a key absent from the JSON object (`data.get(key, 'N/A')`). -/
structure OmdbMovie where
  title : Option String
  year : Option String
  genre : Option String
  director : Option String
  plot : Option String

/-- Outcome of the HTTP call in `fetch_movie_details_from_omdb`:
a 2xx answer whose JSON has `Response == "True"`, a 2xx answer whose JSON does
not (the not-found case, with its optional `Error` field), or a
`requests.exceptions.RequestException` (timeout, DNS failure, or a non-2xx
status raised by `response.raise_for_status()`). -/
inductive OmdbOutcome
  | success (m : OmdbMovie)
  | notFound (err : Option String)
  | requestError

/-- The literal not-available sentinel returned on a negative OMDb answer. -/
def notAvailableSentinel : String := "Movie details not available."

/-- The literal error sentinel returned on a transport-level failure. -/
def errorFetchingSentinel : String := "Error fetching movie details."

/-- The multi-field summary built on `Response == "True"`, with `N/A` standing
in for each missing field. -/
def formatDetails (m : OmdbMovie) : String :=
  "Title: " ++ m.title.getD "N/A" ++ "\n" ++
  "Year: " ++ m.year.getD "N/A" ++ "\n" ++
  "Genre: " ++ m.genre.getD "N/A" ++ "\n" ++
  "Director: " ++ m.director.getD "N/A" ++ "\n" ++
  "Plot: " ++ m.plot.getD "N/A"

/-- The function `fetch_movie_details_from_omdb`, as a function of the outcome
of its single HTTP request. -/
def fetch_movie_details_from_omdb : OmdbOutcome → String
  | .success m => formatDetails m
  | .notFound _ => notAvailableSentinel
  | .requestError => errorFetchingSentinel

/-! ## Ingestion (`fetch_movies_from_channel`, lines 130-171) -/

/-- The default caption: `caption = update.message.caption or "No details available"`. -/
def noDetailsSentinel : String := "No details available"

/-- Lines 159-166 of `fetch_movies_from_channel`, deciding the stored
description of one message. `caption` is `update.message.caption` (absent or a
string; the empty string is falsy in Python, so `or` replaces it by the
default). `omdb` maps a normalized name to the result of
`fetch_movie_details_from_omdb`. Returns the stored description and whether the
external OMDb lookup was performed. -/
def resolveDetails (caption : Option String) (omdb : String → String)
    (normalizedName : String) : String × Bool :=
  let cap : String :=
    match caption with
    | some c => if c = "" then noDetailsSentinel else c
    | none => noDetailsSentinel
  if cap = noDetailsSentinel then
    (if omdb normalizedName = "" then cap else omdb normalizedName, true)
  else (cap, false)

/-- An incoming message: `update.message.caption` and
`update.message.document.file_id`, each possibly absent. -/
structure ChanMsg where
  caption : Option String
  document : Option String

/-- One `Update` object returned by `bot.get_updates`. -/
structure ChanUpdate where
  update_id : Nat
  message : Option ChanMsg

/-- Outcome of `bot.get_updates(offset=...)`: a list of updates, or one of the
exceptions caught at lines 139-151 (`RetryAfter` with the server-advised wait,
`Conflict` for a duplicate consumer, `Unauthorized` for a bad chat id, and the
remaining `TelegramError`/`BadRequest` cases). -/
inductive GetUpdatesResult
  | ok (updates : List ChanUpdate)
  | retryAfter (seconds : Nat)
  | conflict
  | unauthorized
  | otherTelegramError

/-- State touched by one ingestion cycle: the persisted cursor file and the
catalog table. -/
structure IngestState where
  cursor : Option Nat
  db : List MovieRow

/-- The catalog row staged for one message carrying a document (lines 158-168):
normalize the (defaulted) caption, resolve the description, keep the file id. -/
def stageRow (omdb : String → String) (m : ChanMsg) : MovieRow :=
  let cap : String :=
    match m.caption with
    | some c => if c = "" then noDetailsSentinel else c
    | none => noDetailsSentinel
  let norm := normalize_movie_name cap
  (norm, (resolveDetails m.caption omdb norm).1, m.document.getD "")

/-- Loop body of lines 154-168 over one update: save `update_id + 1` when
`update.update_id` is truthy (non-zero), and stage a row when the update has a
message with a document. -/
def consumeUpdate (omdb : String → String) (p : Option Nat × List MovieRow)
    (u : ChanUpdate) : Option Nat × List MovieRow :=
  let cur := if u.update_id ≠ 0 then some (u.update_id + 1) else p.1
  let staged :=
    match u.message with
    | some m => if m.document.isSome then p.2 ++ [stageRow omdb m] else p.2
    | none => p.2
  (cur, staged)

/-- The function `fetch_movies_from_channel` (lines 130-171), as a function of
the outcome of `bot.get_updates`. The second component is the number of seconds
slept (`time.sleep(e.retry_after)`), when any. Every error case is caught and
the function returns; nothing terminates the process. -/
def fetch_movies_from_channel (st : IngestState) (res : GetUpdatesResult)
    (omdb : String → String) : IngestState × Option Nat :=
  match res with
  | .retryAfter n => (st, some n)
  | .conflict => (st, none)
  | .unauthorized => (st, none)
  | .otherTelegramError => (st, none)
  | .ok updates =>
    let p := updates.foldl (consumeUpdate omdb) (st.cursor, [])
    ({ cursor := p.1,
       db := if p.2 = [] then st.db else insert_movies st.db p.2 }, none)

/-! ## Cursor store (`get_last_update_id`, lines 41-50) -/

/-- Digits of a decimal literal folded to a number. -/
def digitsVal (l : List Char) : Nat :=
  l.foldl (fun a c => a * 10 + (c.toNat - 48)) 0

/-- Whether the stripped file content is accepted by Python's `int(...)`:
an optional sign followed by one or more ASCII digits (non-ASCII digits and
numeric-literal underscores are out of scope). -/
def isIntLiteral (l : List Char) : Bool :=
  match pstrip l with
  | '+' :: ds => !ds.isEmpty && ds.all isDigitChar
  | '-' :: ds => !ds.isEmpty && ds.all isDigitChar
  | ds => !ds.isEmpty && ds.all isDigitChar

/-- Value of `int(content.strip())` when it parses, `none` on `ValueError`. -/
def parsePyInt (l : List Char) : Option Int :=
  if isIntLiteral l then
    match pstrip l with
    | '+' :: ds => some (digitsVal ds)
    | '-' :: ds => some (-(digitsVal ds : Int))
    | ds => some (digitsVal ds)
  else none

/-- The function `get_last_update_id` (lines 41-50), as a function of the
cursor file's content (`none`: the file does not exist). A content that does
not parse as an integer raises `ValueError`, which is caught: the function
logs and returns `None`. -/
def get_last_update_id (fileContent : Option String) : Option Int :=
  match fileContent with
  | none => none
  | some s => parsePyInt s.data

/-! ## Semantic matcher -/

/-- Modelled from the spec: the semantic matcher `best_match` of section 4.5 is
not part of `src/movie_bot.py` (the source only initializes the shared
sentence-embedding model at lines 37-38; the query-side code is missing from
the repository). Following the spec's words: every entry is embedded, the query
is embedded by the same model, similarity is cosine; the entry with the
smallest cosine distance is returned, and queries whose best similarity is
below the configured minimum-similarity floor return absent. The composition
of the embedding model with cosine similarity against the fixed query is
abstracted as the score function `score`. -/
def best_match (score : MovieRow → ℚ) (minSim : ℚ) :
    List MovieRow → Option MovieRow
  | [] => none
  | e :: es =>
    let b := es.foldl (fun a x => if score a < score x then x else a) e
    if minSim ≤ score b then some b else none

/-- Cosine distance corresponding to a cosine-similarity score. -/
def cosine_distance (score : MovieRow → ℚ) (e : MovieRow) : ℚ := 1 - score e

/-- Concrete catalog snapshot used by witnesses. -/
def wEntries : List MovieRow :=
  [("Inception (2010)", "dream heist", "f1"),
   ("The Matrix (1999)", "simulated reality", "f2")]

/-- Concrete similarity score used by witnesses. -/
def wScore : MovieRow → ℚ := fun e => if e.1 = "The Matrix (1999)" then 9 else 1

/-!  # Theorems  -/

/-! ## Semantic matcher (C1) -/

theorem best_pick_mem (score : MovieRow → ℚ) :
    ∀ (es : List MovieRow) (e : MovieRow),
      es.foldl (fun a x => if score a < score x then x else a) e ∈ e :: es := by
  intro es
  induction es with
  | nil => intro e; simp
  | cons x es ih =>
    intro e
    have h := ih (if score e < score x then x else e)
    simp only [List.foldl_cons]
    rcases List.mem_cons.mp h with h1 | h2
    · rw [h1]
      split <;> simp
    · exact List.mem_cons_of_mem _ (List.mem_cons_of_mem _ h2)

theorem best_pick_ge (score : MovieRow → ℚ) :
    ∀ (es : List MovieRow) (e x : MovieRow), x ∈ e :: es →
      score x ≤ score (es.foldl (fun a x => if score a < score x then x else a) e) := by
  intro es
  induction es with
  | nil =>
    intro e x hx
    simp at hx
    subst hx
    simp
  | cons y es ih =>
    intro e x hx
    simp only [List.foldl_cons]
    have hey : score e ≤ score (if score e < score y then y else e) := by
      split
      · next hc => exact le_of_lt hc
      · exact le_refl _
    have hyy : score y ≤ score (if score e < score y then y else e) := by
      split
      · exact le_refl _
      · next hc => exact not_lt.mp hc
    rcases List.mem_cons.mp hx with rfl | hx2
    · exact le_trans hey (ih _ _ (List.mem_cons_self _ _))
    rcases List.mem_cons.mp hx2 with rfl | hx3
    · exact le_trans hyy (ih _ _ (List.mem_cons_self _ _))
    · exact ih _ _ (List.mem_cons_of_mem _ hx3)

/-- C1: for every query score and catalog snapshot, `best_match` returns an
entry of the catalog whose cosine distance to the query is smallest (and whose
similarity reaches the floor); when no entry's similarity reaches the
minimum-similarity floor it returns `none`; and when some entry does reach the
floor it does return an entry. -/
theorem best_match_spec (score : MovieRow → ℚ) (minSim : ℚ) (es : List MovieRow) :
    (∀ e, best_match score minSim es = some e →
      e ∈ es ∧ minSim ≤ score e ∧
        ∀ x ∈ es, cosine_distance score e ≤ cosine_distance score x) ∧
    ((∀ x ∈ es, score x < minSim) → best_match score minSim es = none) ∧
    ((∃ x ∈ es, minSim ≤ score x) → ∃ e, best_match score minSim es = some e) := by
  rcases es with _ | ⟨e0, es⟩
  · refine ⟨?_, ?_, ?_⟩
    · intro e h
      simp [best_match] at h
    · intro _
      rfl
    · rintro ⟨x, hx, -⟩
      simp at hx
  · have hmem : es.foldl (fun a x => if score a < score x then x else a) e0 ∈ e0 :: es :=
      best_pick_mem score es e0
    have hge : ∀ x ∈ e0 :: es,
        score x ≤ score (es.foldl (fun a x => if score a < score x then x else a) e0) :=
      fun x hx => best_pick_ge score es e0 x hx
    have hbm : best_match score minSim (e0 :: es) =
        if minSim ≤ score (es.foldl (fun a x => if score a < score x then x else a) e0) then
          some (es.foldl (fun a x => if score a < score x then x else a) e0)
        else none := rfl
    refine ⟨?_, ?_, ?_⟩
    · intro e h
      rw [hbm] at h
      split at h
      · next hfloor =>
        rw [Option.some_inj] at h
        subst h
        refine ⟨hmem, hfloor, ?_⟩
        intro x hx
        unfold cosine_distance
        have := hge x hx
        linarith
      · exact absurd h (by simp)
    · intro hall
      rw [hbm, if_neg (not_le.mpr (hall _ hmem))]
    · rintro ⟨x, hx, hxf⟩
      rw [hbm, if_pos (le_trans hxf (hge x hx))]
      exact ⟨_, rfl⟩

/-- Witness for C1 at a concrete catalog and score. -/
theorem best_match_spec_witness :
    ("The Matrix (1999)", "simulated reality", "f2") ∈ wEntries ∧
    (5 : ℚ) ≤ wScore ("The Matrix (1999)", "simulated reality", "f2") ∧
    ∀ x ∈ wEntries,
      cosine_distance wScore ("The Matrix (1999)", "simulated reality", "f2") ≤
        cosine_distance wScore x :=
  (best_match_spec wScore 5 wEntries).1 _ (by decide)

/-! ## Metadata resolver and captions (C3) -/

/-- C3 counterexample: a message whose original caption is the non-empty string
"No details available" does trigger the external lookup, and the stored
description is the lookup's answer rather than the caption. -/
theorem resolveDetails_cex :
    resolveDetails (some noDetailsSentinel) (fun _ => "OMDB RESULT") "k"
      = ("OMDB RESULT", true) ∧
    noDetailsSentinel ≠ "" ∧ ("OMDB RESULT" : String) ≠ noDetailsSentinel := by
  refine ⟨by decide, by decide, by decide⟩

/-- C3 amended: a non-empty caption different from the literal default
"No details available" is stored verbatim with no external call; the external
lookup runs exactly when the caption is absent, empty, or equal to that
literal. -/
theorem resolveDetails_spec (c : String) (f : String → String) (k : String) :
    (c ≠ "" → c ≠ noDetailsSentinel → resolveDetails (some c) f k = (c, false)) ∧
    (resolveDetails none f k).2 = true ∧
    (resolveDetails (some "") f k).2 = true ∧
    (resolveDetails (some noDetailsSentinel) f k).2 = true := by
  refine ⟨?_, ?_, ?_, ?_⟩
  · intro h1 h2
    simp only [resolveDetails, if_neg h1, if_neg h2]
  · rfl
  · rfl
  · rfl

/-- Witness for C3 at a concrete caption. -/
theorem resolveDetails_spec_witness :
    resolveDetails (some "Inception") (fun _ => "OMDB RESULT") "k" = ("Inception", false) :=
  (resolveDetails_spec "Inception" (fun _ => "OMDB RESULT") "k").1 (by decide) (by decide)

/-! ## Catalog store (C4, C5) -/

theorem insertOne_of_mem (db : List MovieRow) (r : MovieRow) (h : r.1 ∈ keys db) :
    insertOne db r = db := by
  unfold insertOne
  rw [if_pos h]

theorem insertOne_append (db : List MovieRow) (r : MovieRow) :
    ∃ t, insertOne db r = db ++ t := by
  unfold insertOne
  split
  · exact ⟨[], by simp⟩
  · exact ⟨[r], rfl⟩

theorem insert_movies_append :
    ∀ (batch db : List MovieRow), ∃ t, insert_movies db batch = db ++ t := by
  intro batch
  induction batch with
  | nil => intro db; exact ⟨[], by simp [insert_movies]⟩
  | cons r bs ih =>
    intro db
    rcases insertOne_append db r with ⟨t0, h0⟩
    rcases ih (insertOne db r) with ⟨t1, h1⟩
    refine ⟨t0 ++ t1, ?_⟩
    simp only [insert_movies, List.foldl_cons] at h1 ⊢
    rw [h1, h0, List.append_assoc]

theorem keys_insertOne_nodup (db : List MovieRow) (r : MovieRow)
    (h : (keys db).Nodup) : (keys (insertOne db r)).Nodup := by
  unfold insertOne
  split
  · exact h
  · next hmem =>
    have hk : keys (db ++ [r]) = keys db ++ [r.1] := by simp [keys]
    rw [hk, List.nodup_append]
    refine ⟨h, List.nodup_singleton _, ?_⟩
    intro a ha hb
    simp at hb
    subst hb
    exact hmem ha

theorem insert_movies_nodup :
    ∀ (batch db : List MovieRow), (keys db).Nodup →
      (keys (insert_movies db batch)).Nodup := by
  intro batch
  induction batch with
  | nil => intro db h; simpa [insert_movies] using h
  | cons r bs ih =>
    intro db h
    simp only [insert_movies, List.foldl_cons]
    exact ih (insertOne db r) (keys_insertOne_nodup db r h)

theorem keys_insert_movies_mono :
    ∀ (batch db : List MovieRow) (k : String), k ∈ keys db →
      k ∈ keys (insert_movies db batch) := by
  intro batch db k hk
  rcases insert_movies_append batch db with ⟨t, ht⟩
  rw [ht]
  simp [keys] at hk ⊢
  rcases hk with ⟨b, c, hb⟩
  exact Or.inl ⟨b, c, hb⟩

theorem insert_movies_mem_batch :
    ∀ (batch db : List MovieRow), ∀ r ∈ batch, r.1 ∈ keys (insert_movies db batch) := by
  intro batch
  induction batch with
  | nil => intro db r hr; simp at hr
  | cons x bs ih =>
    intro db r hr
    simp only [insert_movies, List.foldl_cons]
    rcases List.mem_cons.mp hr with rfl | hr2
    · refine keys_insert_movies_mono bs (insertOne db r) r.1 ?_
      unfold insertOne
      split
      · assumption
      · simp [keys]
    · exact ih (insertOne db x) r hr2

theorem insert_movies_twice (db : List MovieRow) (e : MovieRow) :
    insert_movies db [e, e] = insert_movies db [e] := by
  have hmem : e.1 ∈ keys (insertOne db e) := by
    unfold insertOne
    split
    · assumption
    · simp [keys]
  simp only [insert_movies, List.foldl_cons, List.foldl_nil]
  rw [insertOne_of_mem _ _ hmem]

/-- C4: `insert_movies` keeps `normalized_name` unique, never touches existing
rows (the result extends the old catalog, so a colliding batch entry is
skipped and the first write wins), raises nothing, still persists the key of
every batch entry, and inserting the same entry twice equals inserting it
once. -/
theorem insert_movies_spec (db batch : List MovieRow) (hnd : (keys db).Nodup) :
    (keys (insert_movies db batch)).Nodup ∧
    (∃ t, insert_movies db batch = db ++ t) ∧
    (∀ r ∈ batch, r.1 ∈ keys (insert_movies db batch)) ∧
    (∀ e : MovieRow, insert_movies db [e, e] = insert_movies db [e]) :=
  ⟨insert_movies_nodup batch db hnd, insert_movies_append batch db,
   insert_movies_mem_batch batch db, insert_movies_twice db⟩

/-- Witness for C4 at a concrete catalog and batch with one collision. -/
theorem insert_movies_spec_witness :
    (keys (insert_movies [("a", "d1", "f1")] [("a", "d2", "f2"), ("b", "d", "f")])).Nodup ∧
    (∃ t, insert_movies [("a", "d1", "f1")] [("a", "d2", "f2"), ("b", "d", "f")]
        = [("a", "d1", "f1")] ++ t) ∧
    (∀ r ∈ [(("a", "d2", "f2") : MovieRow), ("b", "d", "f")],
        r.1 ∈ keys (insert_movies [("a", "d1", "f1")] [("a", "d2", "f2"), ("b", "d", "f")])) ∧
    (∀ e : MovieRow,
        insert_movies [("a", "d1", "f1")] [e, e] = insert_movies [("a", "d1", "f1")] [e]) :=
  insert_movies_spec [("a", "d1", "f1")] [("a", "d2", "f2"), ("b", "d", "f")] (by decide)

/-- C5 counterexample: with a storage error raised while the second row of a
two-row batch is processed, the catalog afterwards is empty — not the
pre-failure subset containing the first row, as the claim states. -/
theorem insert_movies_run_cex :
    insert_movies_run [] [("a", "d", "f"), ("b", "d", "f")] (some 1) = ([], false) ∧
    ([] : List MovieRow) ≠ [("a", "d", "f")] := by
  refine ⟨rfl, by decide⟩

/-- C5 amended: a storage error during the batch is logged and not re-raised
(second component `false`), and the whole transaction is rolled back, so the
catalog is unchanged for that call; without an error the whole batch is
inserted. -/
theorem insert_movies_run_spec (db batch : List MovieRow) (i : Nat)
    (hi : i < batch.length) :
    insert_movies_run db batch (some i) = (db, false) ∧
    insert_movies_run db batch none = (insert_movies db batch, false) := by
  refine ⟨?_, rfl⟩
  simp [insert_movies_run, hi]

/-- Witness for C5 at a concrete batch. -/
theorem insert_movies_run_spec_witness :
    insert_movies_run [] [("a", "d", "f"), ("b", "d", "f")] (some 0)
      = ([], false) ∧
    insert_movies_run [] [("a", "d", "f"), ("b", "d", "f")] none
      = (insert_movies [] [("a", "d", "f"), ("b", "d", "f")], false) :=
  insert_movies_run_spec [] [("a", "d", "f"), ("b", "d", "f")] 0 (by decide)

/-! ## External lookup (C8) -/

/-- C8: the external lookup is total over its three response cases — a found
response yields the fixed multi-field summary with `N/A` for each missing
field, a negative answer yields the not-available sentinel, and a
transport-level failure yields the error sentinel; the two sentinels differ;
and a timed-out lookup for canonical key "Unknown Film (2020)" yields a stored
description equal to the error sentinel. -/
theorem fetch_movie_details_spec (o : OmdbOutcome) :
    (∀ m, o = .success m → fetch_movie_details_from_omdb o = formatDetails m) ∧
    (∀ e, o = .notFound e → fetch_movie_details_from_omdb o = notAvailableSentinel) ∧
    (o = .requestError → fetch_movie_details_from_omdb o = errorFetchingSentinel) ∧
    notAvailableSentinel ≠ errorFetchingSentinel ∧
    resolveDetails none (fun _ => fetch_movie_details_from_omdb .requestError)
        "Unknown Film (2020)" = (errorFetchingSentinel, true) := by
  refine ⟨?_, ?_, ?_, by decide, by decide⟩
  · rintro m rfl; rfl
  · rintro e rfl; rfl
  · rintro rfl; rfl

/-- Witness for C8 at the transport-failure case. -/
theorem fetch_movie_details_spec_witness :
    fetch_movie_details_from_omdb .requestError = errorFetchingSentinel :=
  (fetch_movie_details_spec .requestError).2.2.1 rfl

/-! ## Ingestion-cycle channel errors (C9) -/

/-- C9: a rate-limit answer makes the cycle sleep the server-advised number of
seconds and return; a duplicate-consumer conflict, an authorization failure and
any other Telegram error each make the cycle return after logging — in all
four cases the cursor and the catalog are exactly the prior state, and the
function returns instead of raising (nothing terminates the process). -/
theorem fetch_movies_from_channel_errors (st : IngestState)
    (omdb : String → String) (n : Nat) :
    fetch_movies_from_channel st (.retryAfter n) omdb = (st, some n) ∧
    fetch_movies_from_channel st .conflict omdb = (st, none) ∧
    fetch_movies_from_channel st .unauthorized omdb = (st, none) ∧
    fetch_movies_from_channel st .otherTelegramError omdb = (st, none) :=
  ⟨rfl, rfl, rfl, rfl⟩

/-! ## Character classes and word splitting (towards C2, C6, C7) -/

theorem not_space_of_word {c : Char} (h : isWordChar c = true) : isSpaceChar c = false := by
  by_contra hs
  rw [Bool.not_eq_false] at hs
  simp only [isWordChar, Bool.or_eq_true, Bool.and_eq_true, decide_eq_true_eq] at h
  simp only [isSpaceChar, Bool.or_eq_true, Bool.and_eq_true, decide_eq_true_eq] at hs
  omega

theorem word_of_digit {c : Char} (h : isDigitChar c = true) : isWordChar c = true := by
  simp only [isDigitChar, Bool.and_eq_true, decide_eq_true_eq] at h
  simp only [isWordChar, Bool.or_eq_true, Bool.and_eq_true, decide_eq_true_eq]
  omega

theorem not_space_of_digit {c : Char} (h : isDigitChar c = true) : isSpaceChar c = false :=
  not_space_of_word (word_of_digit h)

theorem repl_eq_self {c : Char} (h : isWordChar c = true ∨ c = ' ') : repl c = c := by
  rcases h with h | rfl
  · simp [repl, h]
  · rfl

theorem repl_class (c : Char) : isWordChar (repl c) = true ∨ isSpaceChar (repl c) = true := by
  unfold repl
  split
  · next h =>
    rw [Bool.or_eq_true] at h
    exact h
  · right
    decide

theorem repl_space_of_not_word {c : Char} (h : isWordChar c = false) :
    isSpaceChar (repl c) = true := by
  unfold repl
  split
  · next hc =>
    rw [Bool.or_eq_true] at hc
    rcases hc with h1 | h1
    · rw [h] at h1
      exact Bool.noConfusion h1
    · exact h1
  · decide

theorem mem_of_takeWhile {p : Char → Bool} {l : List Char} {x : Char}
    (h : x ∈ l.takeWhile p) : x ∈ l := by
  have h2 : x ∈ l.takeWhile p ++ l.dropWhile p := List.mem_append_left _ h
  rwa [List.takeWhile_append_dropWhile] at h2

theorem mem_of_dropWhile {p : Char → Bool} {l : List Char} {x : Char}
    (h : x ∈ l.dropWhile p) : x ∈ l := by
  have h2 : x ∈ l.takeWhile p ++ l.dropWhile p := List.mem_append_right _ h
  rwa [List.takeWhile_append_dropWhile] at h2

/-- Induction following the recursion of `words`: a list is empty, starts with
a whitespace character, or starts with a word run. -/
theorem words_rec {P : List Char → Prop} (nil : P [])
    (space : ∀ c l, isSpaceChar c = true → P l → P (c :: l))
    (word : ∀ c l, isSpaceChar c = false →
      P (l.dropWhile fun x => !isSpaceChar x) → P (c :: l)) :
    ∀ l, P l := by
  have main : ∀ n l, l.length ≤ n → P l := by
    intro n
    induction n with
    | zero =>
      intro l hl
      rw [List.length_eq_zero.mp (Nat.le_zero.mp hl)]
      exact nil
    | succ n ih =>
      intro l hl
      cases l with
      | nil => exact nil
      | cons c t =>
        cases hc : isSpaceChar c with
        | true => exact space c t hc (ih t (by simpa using Nat.le_of_succ_le_succ hl))
        | false =>
          refine word c t hc (ih _ ?_)
          have h1 : (t.dropWhile fun x => !isSpaceChar x).length ≤ t.length :=
            (List.dropWhile_suffix _).sublist.length_le
          have h2 : t.length + 1 ≤ n + 1 := by simpa using hl
          omega
  intro l
  exact main l.length l (le_refl _)

theorem words_space_cons {c : Char} (h : isSpaceChar c = true) (l : List Char) :
    words (c :: l) = words l := by
  cases l with
  | nil => simp [words, h]
  | cons d cs => simp [words, h]

theorem words_take :
    ∀ (cs : List Char) (c : Char), isSpaceChar c = false →
      words (c :: cs) = (c :: cs.takeWhile (fun x => !isSpaceChar x)) ::
        words (cs.dropWhile fun x => !isSpaceChar x) := by
  intro cs
  induction cs with
  | nil =>
    intro c h
    simp [words, h]
  | cons d cs ih =>
    intro c h
    cases hd : isSpaceChar d with
    | true =>
      simp [words, h, hd, List.takeWhile_cons, List.dropWhile_cons]
    | false =>
      rw [List.takeWhile_cons, List.dropWhile_cons]
      simp only [hd, Bool.not_false, if_true]
      have hw := ih d hd
      simp only [words, h, hd, Bool.false_eq_true, if_false, hw]

theorem words_valid :
    ∀ (l : List Char), ∀ w ∈ words l,
      w ≠ [] ∧ ∀ c ∈ w, isSpaceChar c = false ∧ c ∈ l := by
  refine words_rec ?_ ?_ ?_
  · intro w hw
    simp [words] at hw
  · intro c l hc ih w hw
    rw [words_space_cons hc] at hw
    rcases ih w hw with ⟨h1, h2⟩
    exact ⟨h1, fun x hx => ⟨(h2 x hx).1, List.mem_cons_of_mem _ (h2 x hx).2⟩⟩
  · intro c l hc ih w hw
    rw [words_take l c hc] at hw
    rcases List.mem_cons.mp hw with rfl | hw2
    · refine ⟨by simp, ?_⟩
      intro x hx
      rcases List.mem_cons.mp hx with rfl | hx2
      · exact ⟨hc, List.mem_cons_self _ _⟩
      · have hp := List.mem_takeWhile_imp hx2
        exact ⟨by simpa using hp, List.mem_cons_of_mem _ (mem_of_takeWhile hx2)⟩
    · rcases ih w hw2 with ⟨h1, h2⟩
      exact ⟨h1, fun x hx =>
        ⟨(h2 x hx).1, List.mem_cons_of_mem _ (mem_of_dropWhile (h2 x hx).2)⟩⟩

theorem words_all_nonspace (w : List Char) (hne : w ≠ [])
    (hns : ∀ c ∈ w, isSpaceChar c = false) : words w = [w] := by
  cases w with
  | nil => exact absurd rfl hne
  | cons c cs =>
    rw [words_take cs c (hns c (List.mem_cons_self _ _))]
    have ht : cs.takeWhile (fun x => !isSpaceChar x) = cs :=
      List.takeWhile_eq_self_iff.mpr fun x hx => by
        simpa using hns x (List.mem_cons_of_mem _ hx)
    have hd : cs.dropWhile (fun x => !isSpaceChar x) = [] :=
      List.dropWhile_eq_nil_iff.mpr fun x hx => by
        simpa using hns x (List.mem_cons_of_mem _ hx)
    rw [ht, hd]
    rfl

theorem nonspace_split (v : List Char) :
    ∀ t : List Char,
      (t.dropWhile (fun x => !isSpaceChar x) = [] ∧
        (t ++ ' ' :: v).takeWhile (fun x => !isSpaceChar x) = t ∧
        (t ++ ' ' :: v).dropWhile (fun x => !isSpaceChar x) = ' ' :: v) ∨
      (t.dropWhile (fun x => !isSpaceChar x) ≠ [] ∧
        (t ++ ' ' :: v).takeWhile (fun x => !isSpaceChar x) =
          t.takeWhile (fun x => !isSpaceChar x) ∧
        (t ++ ' ' :: v).dropWhile (fun x => !isSpaceChar x) =
          t.dropWhile (fun x => !isSpaceChar x) ++ ' ' :: v) := by
  have hsp : isSpaceChar ' ' = true := by decide
  intro t
  induction t with
  | nil =>
    left
    refine ⟨rfl, ?_, ?_⟩
    · rw [List.nil_append, List.takeWhile_cons]
      simp [hsp]
    · rw [List.nil_append, List.dropWhile_cons]
      simp [hsp]
  | cons x t ih =>
    cases hx : isSpaceChar x with
    | true =>
      right
      refine ⟨?_, ?_, ?_⟩
      · rw [List.dropWhile_cons]
        simp [hx]
      · rw [List.cons_append, List.takeWhile_cons, List.takeWhile_cons]
        simp [hx]
      · rw [List.cons_append, List.dropWhile_cons, List.dropWhile_cons]
        simp [hx]
    | false =>
      rcases ih with ⟨h1, h2, h3⟩ | ⟨h1, h2, h3⟩
      · left
        refine ⟨?_, ?_, ?_⟩
        · rw [List.dropWhile_cons]
          simp [hx, h1]
        · rw [List.cons_append, List.takeWhile_cons]
          simp [hx, h2]
        · rw [List.cons_append, List.dropWhile_cons]
          simp [hx, h3]
      · right
        refine ⟨?_, ?_, ?_⟩
        · rw [List.dropWhile_cons]
          simp [hx, h1]
        · rw [List.cons_append, List.takeWhile_cons, List.takeWhile_cons]
          simp [hx, h2]
        · rw [List.cons_append, List.dropWhile_cons, List.dropWhile_cons]
          simp [hx, h3]

theorem words_append_space (u v : List Char) :
    words (u ++ ' ' :: v) = words u ++ words v := by
  induction u using words_rec generalizing v with
  | nil =>
    rw [List.nil_append, words_space_cons (by decide)]
    rfl
  | space c l hc ih =>
    rw [List.cons_append, words_space_cons hc, ih v, words_space_cons hc]
  | word c l hc ih =>
    rw [List.cons_append, words_take (l ++ ' ' :: v) c hc, words_take l c hc]
    rcases nonspace_split v l with ⟨h1, h2, h3⟩ | ⟨h1, h2, h3⟩
    · rw [h2, h3, h1]
      have h5 : l.takeWhile (fun x => !isSpaceChar x) ++
          l.dropWhile (fun x => !isSpaceChar x) = l := List.takeWhile_append_dropWhile ..
      rw [h1, List.append_nil] at h5
      rw [h5, words_space_cons (by decide)]
      rfl
    · rw [h2, h3, ih v]
      rfl

theorem joinSp_append_one (ws : List (List Char)) (hne : ws ≠ []) (y : List Char) :
    joinSp (ws ++ [y]) = joinSp ws ++ ' ' :: y := by
  induction ws with
  | nil => exact absurd rfl hne
  | cons w ws ih =>
    cases ws with
    | nil => rfl
    | cons w' ws' =>
      have h1 : joinSp ((w :: w' :: ws') ++ [y]) = w ++ ' ' :: joinSp ((w' :: ws') ++ [y]) := rfl
      have h2 : joinSp (w :: w' :: ws') = w ++ ' ' :: joinSp (w' :: ws') := rfl
      rw [h1, ih (by simp), h2, List.append_assoc]
      rfl

theorem joinSp_mem {c : Char} :
    ∀ (ws : List (List Char)), c ∈ joinSp ws → (∃ w ∈ ws, c ∈ w) ∨ c = ' ' := by
  intro ws
  induction ws with
  | nil => intro h; simp [joinSp] at h
  | cons w ws ih =>
    intro h
    cases ws with
    | nil =>
      simp only [joinSp] at h
      exact Or.inl ⟨w, by simp, h⟩
    | cons w' ws' =>
      have h1 : joinSp (w :: w' :: ws') = w ++ ' ' :: joinSp (w' :: ws') := rfl
      rw [h1] at h
      rcases List.mem_append.mp h with h2 | h2
      · exact Or.inl ⟨w, by simp, h2⟩
      · rcases List.mem_cons.mp h2 with rfl | h3
        · exact Or.inr rfl
        · rcases ih h3 with ⟨w0, hw0, hc0⟩ | h4
          · exact Or.inl ⟨w0, List.mem_cons_of_mem _ hw0, hc0⟩
          · exact Or.inr h4

theorem words_join :
    ∀ (ws : List (List Char)),
      (∀ w ∈ ws, w ≠ [] ∧ ∀ c ∈ w, isSpaceChar c = false) →
      words (joinSp ws) = ws := by
  intro ws
  induction ws with
  | nil => intro _; rfl
  | cons w ws ih =>
    intro hv
    cases ws with
    | nil =>
      have := hv w (by simp)
      exact words_all_nonspace w this.1 this.2
    | cons w' ws' =>
      have h1 : joinSp (w :: w' :: ws') = w ++ ' ' :: joinSp (w' :: ws') := rfl
      have hw := hv w (by simp)
      rw [h1, words_append_space, words_all_nonspace w hw.1 hw.2,
        ih fun x hx => hv x (List.mem_cons_of_mem _ hx)]
      rfl

/-! ## Four-digit runs -/

theorem leadDigits_cons (c : Char) (cs : List Char) :
    leadDigits (c :: cs) = if isDigitChar c then leadDigits cs + 1 else 0 := rfl

theorem leadDigits_le_length : ∀ l : List Char, leadDigits l ≤ l.length := by
  intro l
  induction l with
  | nil => simp [leadDigits]
  | cons c cs ih =>
    rw [leadDigits_cons]
    split_ifs <;> simp only [List.length_cons] <;> omega

theorem has4run_cons (c : Char) (cs : List Char) :
    has4run (c :: cs) = (first4 (c :: cs) || has4run cs) := rfl

theorem first4_short : ∀ l : List Char, l.length ≤ 3 → first4 l = false := by
  intro l h
  rcases l with _ | ⟨a, _ | ⟨b, _ | ⟨c, _ | ⟨d, rest⟩⟩⟩⟩
  · rfl
  · rfl
  · rfl
  · rfl
  · simp [List.length_cons] at h

theorem has4run_short : ∀ l : List Char, l.length ≤ 3 → has4run l = false := by
  intro l
  induction l with
  | nil => intro _; rfl
  | cons c cs ih =>
    intro h
    rw [has4run_cons, first4_short _ h, ih (by simp [List.length_cons] at h; omega)]
    rfl

theorem first4_iff_lead : ∀ l : List Char, first4 l = true ↔ 4 ≤ leadDigits l := by
  intro l
  rcases l with _ | ⟨a, _ | ⟨b, _ | ⟨c, _ | ⟨d, rest⟩⟩⟩⟩
  · simp [first4, leadDigits]
  · have h2 := leadDigits_le_length [a]
    rw [first4_short [a] (by simp)]
    simp at h2 ⊢
    omega
  · have h2 := leadDigits_le_length [a, b]
    rw [first4_short [a, b] (by simp)]
    simp at h2 ⊢
    omega
  · have h2 := leadDigits_le_length [a, b, c]
    rw [first4_short [a, b, c] (by simp)]
    simp at h2 ⊢
    omega
  · cases ha : isDigitChar a <;> cases hb : isDigitChar b <;>
      cases hc : isDigitChar c <;> cases hd : isDigitChar d <;>
        simp [first4, leadDigits_cons, ha, hb, hc, hd]

theorem lead_append_space (u v : List Char) : leadDigits (u ++ ' ' :: v) = leadDigits u := by
  induction u with
  | nil =>
    rw [List.nil_append, leadDigits_cons, if_neg (by decide)]
    rfl
  | cons c u ih =>
    rw [List.cons_append, leadDigits_cons, leadDigits_cons, ih]

theorem first4_append_space (u v : List Char) : first4 (u ++ ' ' :: v) = first4 u := by
  cases hf : first4 u with
  | true =>
    have h1 := (first4_iff_lead u).mp hf
    exact (first4_iff_lead _).mpr (by rw [lead_append_space]; exact h1)
  | false =>
    by_contra h
    rw [Bool.not_eq_false] at h
    have h2 := (first4_iff_lead _).mp h
    rw [lead_append_space] at h2
    have h4 := (first4_iff_lead u).mpr h2
    rw [hf] at h4
    exact Bool.noConfusion h4

theorem has4run_append_space (u v : List Char) :
    has4run (u ++ ' ' :: v) = (has4run u || has4run v) := by
  induction u with
  | nil =>
    have h : first4 (' ' :: v) = false := by
      have h0 := first4_append_space [] v
      rw [List.nil_append] at h0
      rw [h0]
      rfl
    rw [List.nil_append, has4run_cons, h]
    simp [has4run]
  | cons c u ih =>
    have hf : first4 (c :: (u ++ ' ' :: v)) = first4 (c :: u) := by
      have h0 := first4_append_space (c :: u) v
      rwa [List.cons_append] at h0
    rw [List.cons_append, has4run_cons, hf, ih, has4run_cons, Bool.or_assoc]

theorem first4_of_append {u : List Char} (v : List Char) (h : first4 u = true) :
    first4 (u ++ v) = true := by
  rcases u with _ | ⟨a, _ | ⟨b, _ | ⟨c, _ | ⟨d, rest⟩⟩⟩⟩
  · exact Bool.noConfusion h
  · exact Bool.noConfusion h
  · exact Bool.noConfusion h
  · exact Bool.noConfusion h
  · have heq : first4 (a :: b :: c :: d :: (rest ++ v)) = first4 (a :: b :: c :: d :: rest) := rfl
    simp only [List.cons_append]
    rw [heq]
    exact h

theorem has4run_append_left {u : List Char} (v : List Char) (h : has4run u = true) :
    has4run (u ++ v) = true := by
  induction u with
  | nil => exact Bool.noConfusion h
  | cons c u ih =>
    rw [has4run_cons, Bool.or_eq_true] at h
    rw [List.cons_append, has4run_cons, Bool.or_eq_true]
    rcases h with h | h
    · left
      have h2 := first4_of_append v h
      rwa [List.cons_append] at h2
    · exact Or.inr (ih h)

theorem has4run_append_right (u : List Char) {v : List Char} (h : has4run v = true) :
    has4run (u ++ v) = true := by
  induction u with
  | nil => exact h
  | cons c u ih =>
    rw [List.cons_append, has4run_cons, Bool.or_eq_true]
    exact Or.inr ih

theorem removeAll4_cons_false {c : Char} {cs : List Char}
    (h : first4 (c :: cs) = false) : removeAll4 (c :: cs) = c :: removeAll4 cs := by
  rcases cs with _ | ⟨b, _ | ⟨x, _ | ⟨d, rest⟩⟩⟩
  · rfl
  · rfl
  · rfl
  · have hc : (isDigitChar c && isDigitChar b && isDigitChar x && isDigitChar d) = false := h
    simp [removeAll4, hc]

theorem find4_cons_false {c : Char} {cs : List Char}
    (h : first4 (c :: cs) = false) : find4 (c :: cs) = find4 cs := by
  rcases cs with _ | ⟨b, _ | ⟨x, _ | ⟨d, rest⟩⟩⟩
  · rfl
  · rfl
  · rfl
  · have hc : (isDigitChar c && isDigitChar b && isDigitChar x && isDigitChar d) = false := h
    simp [find4, hc]

theorem removeAll4_drop {a b c d : Char} {rest : List Char}
    (h : first4 (a :: b :: c :: d :: rest) = true) :
    removeAll4 (a :: b :: c :: d :: rest) = removeAll4 rest := by
  have hc : (isDigitChar a && isDigitChar b && isDigitChar c && isDigitChar d) = true := h
  simp [removeAll4, hc]

theorem removeAll4_main : ∀ (n : Nat) (l : List Char), l.length ≤ n →
    leadDigits (removeAll4 l) ≤ leadDigits l ∧ has4run (removeAll4 l) = false := by
  intro n
  induction n with
  | zero =>
    intro l hl
    rw [List.length_eq_zero.mp (Nat.le_zero.mp hl)]
    exact ⟨le_refl _, rfl⟩
  | succ n ih =>
    intro l hl
    rcases l with _ | ⟨a, _ | ⟨b, _ | ⟨x, _ | ⟨d, rest⟩⟩⟩⟩
    · exact ⟨le_refl _, rfl⟩
    · exact ⟨le_refl _, rfl⟩
    · exact ⟨le_refl _, rfl⟩
    · exact ⟨le_refl _, rfl⟩
    · cases hf : first4 (a :: b :: x :: d :: rest) with
      | true =>
        rw [removeAll4_drop hf]
        have hlen : rest.length ≤ n := by simp [List.length_cons] at hl; omega
        rcases ih rest hlen with ⟨h1, h2⟩
        refine ⟨?_, h2⟩
        have hc : (isDigitChar a && isDigitChar b && isDigitChar x && isDigitChar d) = true := hf
        simp only [Bool.and_eq_true] at hc
        obtain ⟨⟨⟨ha, hb⟩, hx⟩, hd4⟩ := hc
        simp only [leadDigits_cons, ha, hb, hx, hd4, if_true]
        omega
      | false =>
        rw [removeAll4_cons_false hf]
        have hlen : (b :: x :: d :: rest).length ≤ n := by
          simp [List.length_cons] at hl ⊢
          omega
        rcases ih _ hlen with ⟨h1, h2⟩
        constructor
        · rw [leadDigits_cons, leadDigits_cons]
          split_ifs
          · omega
          · omega
        · rw [has4run_cons, h2, Bool.or_false]
          cases ha : isDigitChar a with
          | false =>
            have hz : leadDigits (a :: removeAll4 (b :: x :: d :: rest)) = 0 := by
              rw [leadDigits_cons, if_neg (by simp [ha])]
            cases hff : first4 (a :: removeAll4 (b :: x :: d :: rest)) with
            | false => rfl
            | true =>
              have h4 := (first4_iff_lead _).mp hff
              omega
          | true =>
            have hlead : leadDigits (a :: b :: x :: d :: rest) ≤ 3 := by
              by_contra hcon
              have h3 : first4 (a :: b :: x :: d :: rest) = true :=
                (first4_iff_lead _).mpr (by omega)
              rw [hf] at h3
              exact Bool.noConfusion h3
            have htail : leadDigits (b :: x :: d :: rest) ≤ 2 := by
              rw [leadDigits_cons, if_pos ha] at hlead
              omega
            have hR : leadDigits (removeAll4 (b :: x :: d :: rest)) ≤ 2 := le_trans h1 htail
            have hall : leadDigits (a :: removeAll4 (b :: x :: d :: rest)) ≤ 3 := by
              rw [leadDigits_cons, if_pos ha]
              omega
            cases hff : first4 (a :: removeAll4 (b :: x :: d :: rest)) with
            | false => rfl
            | true =>
              have h4 := (first4_iff_lead _).mp hff
              omega

theorem has4run_removeAll4 (l : List Char) : has4run (removeAll4 l) = false :=
  (removeAll4_main l.length l (le_refl _)).2

theorem find4_eq_none_iff : ∀ l : List Char, find4 l = none ↔ has4run l = false := by
  intro l
  induction l with
  | nil => simp [find4, has4run]
  | cons c cs ih =>
    cases hf : first4 (c :: cs) with
    | true =>
      rcases cs with _ | ⟨b, _ | ⟨x, _ | ⟨d, rest⟩⟩⟩
      · exact Bool.noConfusion hf
      · exact Bool.noConfusion hf
      · exact Bool.noConfusion hf
      · have hc : (isDigitChar c && isDigitChar b && isDigitChar x && isDigitChar d) = true := hf
        constructor
        · intro h
          simp [find4, hc] at h
        · intro h
          rw [has4run_cons, hf, Bool.true_or] at h
          exact Bool.noConfusion h
    | false =>
      rw [find4_cons_false hf, has4run_cons, hf, Bool.false_or]
      exact ih

theorem find4_some_spec : ∀ (l y : List Char), find4 l = some y →
    y.length = 4 ∧ ∀ c ∈ y, isDigitChar c = true := by
  intro l
  induction l with
  | nil => intro y h; exact Option.noConfusion h
  | cons c cs ih =>
    intro y h
    cases hf : first4 (c :: cs) with
    | false =>
      rw [find4_cons_false hf] at h
      exact ih y h
    | true =>
      rcases cs with _ | ⟨b, _ | ⟨x, _ | ⟨d, rest⟩⟩⟩
      · exact Bool.noConfusion hf
      · exact Bool.noConfusion hf
      · exact Bool.noConfusion hf
      · have hc : (isDigitChar c && isDigitChar b && isDigitChar x && isDigitChar d) = true := hf
        simp only [Bool.and_eq_true] at hc
        obtain ⟨⟨⟨ha, hb⟩, hx⟩, hd4⟩ := hc
        have hcc : (isDigitChar c && isDigitChar b && isDigitChar x && isDigitChar d) = true := hf
        simp only [find4, hcc, if_true] at h
        have hy : y = [c, b, x, d] := by
          rw [Option.some_inj] at h
          exact h.symm
        subst hy
        refine ⟨rfl, ?_⟩
        intro z hz
        simp at hz
        rcases hz with rfl | rfl | rfl | rfl <;> assumption

theorem find4_four (y : List Char) (h4 : y.length = 4)
    (hd : ∀ c ∈ y, isDigitChar c = true) : find4 y = some y := by
  rcases y with _ | ⟨a, _ | ⟨b, _ | ⟨c, _ | ⟨d, rest⟩⟩⟩⟩
  · simp at h4
  · simp at h4
  · simp at h4
  · simp at h4
  · have hrest : rest = [] := by
      simp only [List.length_cons] at h4
      exact List.length_eq_zero.mp (by omega)
    subst hrest
    have ha := hd a (by simp)
    have hb := hd b (by simp)
    have hc := hd c (by simp)
    have hdd := hd d (by simp)
    simp [find4, ha, hb, hc, hdd]

theorem removeAll4_four (y : List Char) (h4 : y.length = 4)
    (hd : ∀ c ∈ y, isDigitChar c = true) : removeAll4 y = [] := by
  rcases y with _ | ⟨a, _ | ⟨b, _ | ⟨c, _ | ⟨d, rest⟩⟩⟩⟩
  · simp at h4
  · simp at h4
  · simp at h4
  · simp at h4
  · have hrest : rest = [] := by
      simp only [List.length_cons] at h4
      exact List.length_eq_zero.mp (by omega)
    subst hrest
    have ha := hd a (by simp)
    have hb := hd b (by simp)
    have hc := hd c (by simp)
    have hdd := hd d (by simp)
    simp [removeAll4, ha, hb, hc, hdd]

theorem find4_append_space {u : List Char} (v : List Char) (h : has4run u = false) :
    find4 (u ++ ' ' :: v) = find4 v := by
  induction u with
  | nil =>
    have h0 : first4 (' ' :: v) = false := by
      have h1 := first4_append_space [] v
      rw [List.nil_append] at h1
      rw [h1]
      rfl
    rw [List.nil_append, find4_cons_false h0]
  | cons c u ih =>
    rw [has4run_cons] at h
    obtain ⟨hf, hu⟩ := Bool.or_eq_false_iff.mp h
    have hf2 : first4 (c :: (u ++ ' ' :: v)) = false := by
      have h1 := first4_append_space (c :: u) v
      rw [List.cons_append] at h1
      rw [h1]
      exact hf
    rw [List.cons_append, find4_cons_false hf2, ih hu]

theorem removeAll4_append_space {u : List Char} (v : List Char) (h : has4run u = false) :
    removeAll4 (u ++ ' ' :: v) = u ++ ' ' :: removeAll4 v := by
  induction u with
  | nil =>
    have h0 : first4 (' ' :: v) = false := by
      have h1 := first4_append_space [] v
      rw [List.nil_append] at h1
      rw [h1]
      rfl
    rw [List.nil_append, removeAll4_cons_false h0, List.nil_append]
  | cons c u ih =>
    rw [has4run_cons] at h
    obtain ⟨hf, hu⟩ := Bool.or_eq_false_iff.mp h
    have hf2 : first4 (c :: (u ++ ' ' :: v)) = false := by
      have h1 := first4_append_space (c :: u) v
      rw [List.cons_append] at h1
      rw [h1]
      exact hf
    rw [List.cons_append, removeAll4_cons_false hf2, ih hu, List.cons_append]

theorem words_no4run :
    ∀ (l : List Char), has4run l = false → ∀ w ∈ words l, has4run w = false := by
  refine words_rec ?_ ?_ ?_
  · intro _ w hw
    simp [words] at hw
  · intro c l hc ih h w hw
    rw [words_space_cons hc] at hw
    rw [has4run_cons] at h
    obtain ⟨h1, h2⟩ := Bool.or_eq_false_iff.mp h
    exact ih h2 w hw
  · intro c l hc ih h w hw
    rw [words_take l c hc] at hw
    rw [has4run_cons] at h
    obtain ⟨h1, h2⟩ := Bool.or_eq_false_iff.mp h
    rcases List.mem_cons.mp hw with rfl | hw2
    · cases hww : has4run (c :: l.takeWhile fun x => !isSpaceChar x) with
      | false => rfl
      | true =>
        have happ : (c :: l.takeWhile fun x => !isSpaceChar x) ++
            (l.dropWhile fun x => !isSpaceChar x) = c :: l := by
          rw [List.cons_append, List.takeWhile_append_dropWhile]
        have h3 := has4run_append_left (l.dropWhile fun x => !isSpaceChar x) hww
        rw [happ, has4run_cons, h1, h2] at h3
        exact Bool.noConfusion h3
    · have hd : has4run (l.dropWhile fun x => !isSpaceChar x) = false := by
        cases hdd : has4run (l.dropWhile fun x => !isSpaceChar x) with
        | false => rfl
        | true =>
          have h3 := has4run_append_right (l.takeWhile fun x => !isSpaceChar x) hdd
          rw [List.takeWhile_append_dropWhile] at h3
          rw [h3] at h2
          exact Bool.noConfusion h2
      exact ih hd w hw2

theorem joinSp_no4run :
    ∀ (ws : List (List Char)), (∀ w ∈ ws, has4run w = false) →
      has4run (joinSp ws) = false := by
  intro ws
  induction ws with
  | nil => intro _; rfl
  | cons w ws ih =>
    intro h
    cases ws with
    | nil => exact h w (by simp)
    | cons w' ws' =>
      have h1 : joinSp (w :: w' :: ws') = w ++ ' ' :: joinSp (w' :: ws') := rfl
      rw [h1, has4run_append_space, h w (by simp),
        ih fun x hx => h x (List.mem_cons_of_mem _ hx)]
      rfl

/-! ## Stripping and cleaning -/

theorem mem_pstrip {l : List Char} {c : Char} (h : c ∈ pstrip l) : c ∈ l := by
  unfold pstrip at h
  rw [List.mem_reverse] at h
  have h1 := mem_of_dropWhile h
  rw [List.mem_reverse] at h1
  unfold lstrip at h1
  exact mem_of_dropWhile h1

theorem has4run_pstrip {l : List Char} (h : has4run l = false) :
    has4run (pstrip l) = false := by
  cases hp : has4run (pstrip l) with
  | false => rfl
  | true =>
    exfalso
    have hs1 : lstrip l <:+ l := List.dropWhile_suffix isSpaceChar
    obtain ⟨t1, ht1⟩ := hs1
    have hs2 : (lstrip l).reverse.dropWhile isSpaceChar <:+ (lstrip l).reverse :=
      List.dropWhile_suffix isSpaceChar
    obtain ⟨t2, ht2⟩ := hs2
    have hX : lstrip l = pstrip l ++ t2.reverse := by
      have h2 := congrArg List.reverse ht2
      rw [List.reverse_append, List.reverse_reverse] at h2
      rw [← h2]
      rfl
    have hl : l = t1 ++ (pstrip l ++ t2.reverse) := by rw [← hX, ht1]
    have h3 := has4run_append_left t2.reverse hp
    have h4 := has4run_append_right t1 h3
    rw [← hl] at h4
    rw [h4] at h
    exact Bool.noConfusion h

theorem mem_removeAll4 : ∀ (n : Nat) (l : List Char), l.length ≤ n →
    ∀ c ∈ removeAll4 l, c ∈ l := by
  intro n
  induction n with
  | zero =>
    intro l hl c hc
    rw [List.length_eq_zero.mp (Nat.le_zero.mp hl)] at hc ⊢
    exact hc
  | succ n ih =>
    intro l hl c hc
    rcases l with _ | ⟨a, _ | ⟨b, _ | ⟨x, _ | ⟨d, rest⟩⟩⟩⟩
    · exact hc
    · exact hc
    · exact hc
    · exact hc
    · cases hf : first4 (a :: b :: x :: d :: rest) with
      | true =>
        rw [removeAll4_drop hf] at hc
        have hlen : rest.length ≤ n := by simp only [List.length_cons] at hl; omega
        have := ih rest hlen c hc
        simp only [List.mem_cons]
        tauto
      | false =>
        rw [removeAll4_cons_false hf] at hc
        rcases List.mem_cons.mp hc with rfl | hc2
        · exact List.mem_cons_self _ _
        · have hlen : (b :: x :: d :: rest).length ≤ n := by
            simp only [List.length_cons] at hl ⊢
            omega
          exact List.mem_cons_of_mem _ (ih _ hlen c hc2)

theorem cleanL_chars (l : List Char) : ∀ c ∈ cleanL l, isWordChar c = true ∨ c = ' ' := by
  intro c hc
  unfold cleanL at hc
  rcases joinSp_mem _ hc with ⟨w, hw, hcw⟩ | rfl
  · have hv := words_valid (l.map repl) w hw
    have h1 : isSpaceChar c = false := (hv.2 c hcw).1
    have h2 : c ∈ l.map repl := (hv.2 c hcw).2
    rw [List.mem_map] at h2
    obtain ⟨x, hx, rfl⟩ := h2
    rcases repl_class x with h3 | h3
    · exact Or.inl h3
    · rw [h3] at h1
      exact Bool.noConfusion h1
  · exact Or.inr rfl

theorem map_repl_self {l : List Char} (h : ∀ c ∈ l, isWordChar c = true ∨ c = ' ') :
    l.map repl = l := by
  induction l with
  | nil => rfl
  | cons c cs ih =>
    rw [List.map_cons, repl_eq_self (h c (by simp)),
      ih fun x hx => h x (List.mem_cons_of_mem _ hx)]

theorem words_valid_sp (l : List Char) :
    ∀ w ∈ words l, w ≠ [] ∧ ∀ c ∈ w, isSpaceChar c = false :=
  fun w hw => ⟨(words_valid l w hw).1, fun c hc => ((words_valid l w hw).2 c hc).1⟩

theorem cleanL_idem (l : List Char) : cleanL (cleanL l) = cleanL l := by
  conv_lhs => rw [cleanL]
  rw [map_repl_self (cleanL_chars l)]
  conv_lhs => rw [cleanL]
  rw [words_join _ (words_valid_sp (l.map repl))]
  rfl

theorem joinSp_reverse_head :
    ∀ (ws : List (List Char)), (∀ w ∈ ws, w ≠ [] ∧ ∀ c ∈ w, isSpaceChar c = false) →
      ws ≠ [] → ∃ c t, (joinSp ws).reverse = c :: t ∧ isSpaceChar c = false := by
  intro ws
  induction ws with
  | nil =>
    intro _ h
    exact absurd rfl h
  | cons w ws' ih =>
    intro hv _
    cases ws' with
    | nil =>
      obtain ⟨hwne, hwns⟩ := hv w (by simp)
      rcases hr : w.reverse with _ | ⟨c, t⟩
      · rw [List.reverse_eq_nil_iff] at hr
        exact absurd hr hwne
      · refine ⟨c, t, ?_, ?_⟩
        · show (joinSp [w]).reverse = c :: t
          rw [show joinSp [w] = w from rfl, hr]
        · have hcm : c ∈ w.reverse := by rw [hr]; simp
          rw [List.mem_reverse] at hcm
          exact hwns c hcm
    | cons w1 ws1 =>
      obtain ⟨c, t, hct, hcs⟩ := ih (fun x hx => hv x (List.mem_cons_of_mem _ hx)) (by simp)
      refine ⟨c, (t ++ [' ']) ++ w.reverse, ?_, hcs⟩
      have h1 : joinSp (w :: w1 :: ws1) = w ++ ' ' :: joinSp (w1 :: ws1) := rfl
      rw [h1, List.reverse_append, List.reverse_cons, hct, List.cons_append, List.cons_append]

theorem pstrip_joinSp_space (ws : List (List Char))
    (hv : ∀ w ∈ ws, w ≠ [] ∧ ∀ c ∈ w, isSpaceChar c = false) :
    pstrip (joinSp ws ++ [' ']) = joinSp ws := by
  cases ws with
  | nil => rfl
  | cons w ws' =>
    obtain ⟨hwne, hwns⟩ := hv w (by simp)
    rcases w with _ | ⟨c0, w0⟩
    · exact absurd rfl hwne
    have hc0 : isSpaceChar c0 = false := hwns c0 (by simp)
    have hshape : ∃ t, joinSp ((c0 :: w0) :: ws') = c0 :: t := by
      cases ws' with
      | nil => exact ⟨w0, rfl⟩
      | cons w1 ws1 => exact ⟨w0 ++ ' ' :: joinSp (w1 :: ws1), rfl⟩
    obtain ⟨t, ht⟩ := hshape
    have hl : lstrip (joinSp ((c0 :: w0) :: ws') ++ [' ']) =
        joinSp ((c0 :: w0) :: ws') ++ [' '] := by
      rw [ht, List.cons_append]
      unfold lstrip
      rw [List.dropWhile_cons, if_neg (by simp [hc0])]
    obtain ⟨c1, t1, hrev, hc1⟩ := joinSp_reverse_head ((c0 :: w0) :: ws') hv (by simp)
    unfold pstrip
    rw [hl]
    have h2 : (joinSp ((c0 :: w0) :: ws') ++ [' ']).reverse =
        ' ' :: (joinSp ((c0 :: w0) :: ws')).reverse := by
      rw [List.reverse_append]
      rfl
    rw [h2, List.dropWhile_cons, if_pos (by decide), hrev,
      List.dropWhile_cons, if_neg (by simp [hc1]), ← hrev, List.reverse_reverse]

/-! ## The shape of `normalize_movie_name` output -/

/-- Applying `normalizeL` to a string of the shape `body ++ " (year)"`, where
the body consists of word characters and plain spaces and contains no run of
four digits, re-cleans the body (collapsing any duplicated spaces) and
re-appends the same year. -/
theorem normalizeL_body_year (B y : List Char)
    (hBc : ∀ c ∈ B, isWordChar c = true ∨ c = ' ')
    (hB4 : has4run B = false)
    (hy4 : y.length = 4) (hyd : ∀ c ∈ y, isDigitChar c = true) :
    normalizeL (B ++ ' ' :: '(' :: (y ++ [')'])) =
      joinSp (words B) ++ ' ' :: '(' :: (y ++ [')']) := by
  have hyne : y ≠ [] := by
    intro h
    rw [h] at hy4
    simp at hy4
  have hyns : ∀ c ∈ y, isSpaceChar c = false := fun c hc => not_space_of_digit (hyd c hc)
  have hmap : (B ++ ' ' :: '(' :: (y ++ [')'])).map repl = B ++ ' ' :: ' ' :: (y ++ [' ']) := by
    rw [List.map_append, List.map_cons, List.map_cons, List.map_append, List.map_cons,
      List.map_nil, map_repl_self hBc,
      map_repl_self fun c hc => Or.inl (word_of_digit (hyd c hc))]
    rfl
  have hwords : words ((B ++ ' ' :: '(' :: (y ++ [')'])).map repl) = words B ++ [y] := by
    rw [hmap, words_append_space, words_space_cons (by decide)]
    have hy' : words (y ++ ' ' :: []) = words y ++ words [] := words_append_space y []
    rw [hy', words_all_nonspace y hyne hyns]
    rfl
  have hclean : cleanL (B ++ ' ' :: '(' :: (y ++ [')'])) = joinSp (words B ++ [y]) := by
    rw [cleanL, hwords]
  rcases hWB : words B with _ | ⟨w, ws⟩
  · have hfind : find4 (cleanL (B ++ ' ' :: '(' :: (y ++ [')']))) = some y := by
      rw [hclean, hWB]
      show find4 y = some y
      exact find4_four y hy4 hyd
    have hrem : pstrip (removeAll4 (cleanL (B ++ ' ' :: '(' :: (y ++ [')'])))) = [] := by
      rw [hclean, hWB]
      show pstrip (removeAll4 y) = []
      rw [removeAll4_four y hy4 hyd]
      rfl
    simp only [normalizeL, hfind, hrem]
    rfl
  · rw [← hWB]
    have hne : words B ≠ [] := by rw [hWB]; simp
    have hJA : joinSp (words B ++ [y]) = joinSp (words B) ++ ' ' :: y :=
      joinSp_append_one (words B) hne y
    have hU4 : has4run (joinSp (words B)) = false :=
      joinSp_no4run (words B) (words_no4run B hB4)
    have hfind : find4 (cleanL (B ++ ' ' :: '(' :: (y ++ [')']))) = some y := by
      rw [hclean, hJA, find4_append_space y hU4, find4_four y hy4 hyd]
    have hrem : pstrip (removeAll4 (cleanL (B ++ ' ' :: '(' :: (y ++ [')'])))) =
        joinSp (words B) := by
      rw [hclean, hJA, removeAll4_append_space y hU4, removeAll4_four y hy4 hyd]
      exact pstrip_joinSp_space (words B) (words_valid_sp B)
    simp only [normalizeL, hfind, hrem]

/-! ## Canonicalizer claims (C2, C6, C7) -/

theorem data_mk (l : List Char) : (String.mk l).data = l := rfl

theorem allspace_words : ∀ (l : List Char), (∀ c ∈ l, isSpaceChar c = true) →
    words l = [] := by
  intro l
  induction l with
  | nil => intro _; rfl
  | cons c cs ih =>
    intro h
    rw [words_space_cons (h c (by simp))]
    exact ih fun x hx => h x (List.mem_cons_of_mem _ hx)

theorem normalizeL_second_fix (l : List Char) :
    normalizeL (normalizeL (normalizeL l)) = normalizeL (normalizeL l) := by
  cases hfin : find4 (cleanL l) with
  | none =>
    have h1 : normalizeL l = cleanL l := by simp only [normalizeL, hfin]
    have h2 : normalizeL (cleanL l) = cleanL l := by
      have hcl : cleanL (cleanL l) = cleanL l := cleanL_idem l
      have hf2 : find4 (cleanL (cleanL l)) = none := by rw [hcl]; exact hfin
      simp only [normalizeL, hf2]
      exact hcl
    rw [h1, h2, h2]
  | some y =>
    obtain ⟨hy4, hyd⟩ := find4_some_spec _ y hfin
    have h1 : normalizeL l =
        pstrip (removeAll4 (cleanL l)) ++ ' ' :: '(' :: (y ++ [')']) := by
      simp only [normalizeL, hfin]
    have hB₀c : ∀ c ∈ pstrip (removeAll4 (cleanL l)), isWordChar c = true ∨ c = ' ' := by
      intro c hc
      have h2 := mem_pstrip hc
      have h3 := mem_removeAll4 (cleanL l).length _ (le_refl _) c h2
      exact cleanL_chars l c h3
    have hB₀4 : has4run (pstrip (removeAll4 (cleanL l))) = false :=
      has4run_pstrip (has4run_removeAll4 _)
    have h2 := normalizeL_body_year (pstrip (removeAll4 (cleanL l))) y hB₀c hB₀4 hy4 hyd
    have hB₁c : ∀ c ∈ joinSp (words (pstrip (removeAll4 (cleanL l)))),
        isWordChar c = true ∨ c = ' ' := by
      intro c hc
      rcases joinSp_mem _ hc with ⟨w, hw, hcw⟩ | rfl
      · exact hB₀c c ((words_valid _ w hw).2 c hcw).2
      · exact Or.inr rfl
    have hB₁4 : has4run (joinSp (words (pstrip (removeAll4 (cleanL l))))) = false :=
      joinSp_no4run _ (words_no4run _ hB₀4)
    have h3 := normalizeL_body_year (joinSp (words (pstrip (removeAll4 (cleanL l))))) y
      hB₁c hB₁4 hy4 hyd
    have h4 : words (joinSp (words (pstrip (removeAll4 (cleanL l))))) =
        words (pstrip (removeAll4 (cleanL l))) :=
      words_join _ (words_valid_sp _)
    rw [h1, h2, h3, h4]

/-- C6 counterexample: `normalize` is not a fixed point on its own output.
For caption "12 3456 78" the output is "12  78 (3456)" (removing the year left
a double space that is never re-collapsed), and normalizing that output gives
"12 78 (3456)". -/
theorem normalize_movie_name_not_idem :
    normalize_movie_name (normalize_movie_name "12 3456 78") ≠
      normalize_movie_name "12 3456 78" := by decide

/-- C6 amended: `normalize` need not be a fixed point on its own output (year
removal can leave an uncollapsed double space), but it is from the second
application on: `normalize (normalize (normalize x)) = normalize (normalize x)`
for every string `x`. -/
theorem normalize_movie_name_second_fix (s : String) :
    normalize_movie_name (normalize_movie_name (normalize_movie_name s)) =
      normalize_movie_name (normalize_movie_name s) := by
  simp only [normalize_movie_name, data_mk]
  exact congrArg String.mk (normalizeL_second_fix s.data)

/-- C2 counterexample: for caption "Movie 1999 2020" (two distinct four-digit
substrings), the claim says only the first occurrence "1999" is removed from
the body and "2020" remains; in fact the result is "Movie (1999)" and "2020"
occurs nowhere in it. -/
theorem normalize_multi_year_cex :
    normalize_movie_name "Movie 1999 2020" = "Movie (1999)" ∧
    hasSubL "2020".data (normalize_movie_name "Movie 1999 2020").data = false := by
  refine ⟨by decide, by decide⟩

/-- C2 amended: when the cleaned caption contains a four-digit run, the first
such run (`find4`) becomes the year, and every non-overlapping four-digit run
is deleted from the body (`removeAll4`): the body of the canonical key contains
no four consecutive digits at all, so no other 4-digit substring remains. -/
theorem normalize_year_strips_all (s : String) (y : List Char)
    (h : find4 (cleanL s.data) = some y) :
    (normalize_movie_name s).data =
      pstrip (removeAll4 (cleanL s.data)) ++ ' ' :: '(' :: (y ++ [')']) ∧
    has4run (pstrip (removeAll4 (cleanL s.data))) = false := by
  constructor
  · simp only [normalize_movie_name, normalizeL, h, data_mk]
  · exact has4run_pstrip (has4run_removeAll4 _)

/-- Witness for C2 at the caption "Movie 1999 2020". -/
theorem normalize_year_strips_all_witness :
    (normalize_movie_name "Movie 1999 2020").data =
      pstrip (removeAll4 (cleanL "Movie 1999 2020".data)) ++
        ' ' :: '(' :: (['1', '9', '9', '9'] ++ [')']) ∧
    has4run (pstrip (removeAll4 (cleanL "Movie 1999 2020".data))) = false :=
  normalize_year_strips_all "Movie 1999 2020" ['1', '9', '9', '9'] (by decide)

/-- C7 counterexample: the underscore is in the regex class `\w`, so it
survives normalization: caption "a_b" keeps its underscore, while the claim
says no such character of the input survives into the key. -/
theorem normalize_underscore_cex :
    normalize_movie_name "a_b" = "a_b" ∧ '_' ∈ (normalize_movie_name "a_b").data := by
  refine ⟨by decide, by decide⟩

/-- C7 amended: every character of the canonical key is a word character
(alphanumeric or underscore), a space, or one of the parentheses around the
year — every other input character is replaced by a space before collapsing —
and a caption all of whose characters are outside `\w` (empty, punctuation or
whitespace only) normalizes to the empty string rather than being rejected. -/
theorem normalize_chars_spec (s : String) :
    (∀ c ∈ (normalize_movie_name s).data,
      isWordChar c = true ∨ c = ' ' ∨ c = '(' ∨ c = ')') ∧
    ((∀ c ∈ s.data, isWordChar c = false) → normalize_movie_name s = "") := by
  constructor
  · intro c hc
    simp only [normalize_movie_name, data_mk] at hc
    cases hfin : find4 (cleanL s.data) with
    | none =>
      have h1 : normalizeL s.data = cleanL s.data := by simp only [normalizeL, hfin]
      rw [h1] at hc
      rcases cleanL_chars s.data c hc with h | h
      · exact Or.inl h
      · exact Or.inr (Or.inl h)
    | some y =>
      obtain ⟨hy4, hyd⟩ := find4_some_spec _ y hfin
      have h1 : normalizeL s.data =
          pstrip (removeAll4 (cleanL s.data)) ++ ' ' :: '(' :: (y ++ [')']) := by
        simp only [normalizeL, hfin]
      rw [h1] at hc
      rcases List.mem_append.mp hc with h | h
      · rcases cleanL_chars s.data c
          (mem_removeAll4 _ (cleanL s.data) (le_refl _) c (mem_pstrip h)) with h2 | h2
        · exact Or.inl h2
        · exact Or.inr (Or.inl h2)
      · rcases List.mem_cons.mp h with rfl | h
        · exact Or.inr (Or.inl rfl)
        rcases List.mem_cons.mp h with rfl | h
        · exact Or.inr (Or.inr (Or.inl rfl))
        rcases List.mem_append.mp h with h | h
        · exact Or.inl (word_of_digit (hyd c h))
        · rcases List.mem_cons.mp h with rfl | h
          · exact Or.inr (Or.inr (Or.inr rfl))
          · simp at h
  · intro hall
    have hmap : ∀ c ∈ s.data.map repl, isSpaceChar c = true := by
      intro c hc
      rw [List.mem_map] at hc
      obtain ⟨x, hx, rfl⟩ := hc
      exact repl_space_of_not_word (hall x hx)
    have hw : words (s.data.map repl) = [] := allspace_words _ hmap
    have hcl : cleanL s.data = [] := by rw [cleanL, hw]; rfl
    have hfin : find4 (cleanL s.data) = none := by rw [hcl]; rfl
    simp only [normalize_movie_name, normalizeL, hfin, hcl]
    rfl

/-- Witness for C7 at two concrete captions. -/
theorem normalize_chars_spec_witness :
    (∀ c ∈ (normalize_movie_name "a-b?!").data,
      isWordChar c = true ∨ c = ' ' ∨ c = '(' ∨ c = ')') ∧
    normalize_movie_name "?!." = "" :=
  ⟨(normalize_chars_spec "a-b?!").1, (normalize_chars_spec "?!.").2 (by decide)⟩

/-! ## Cursor store (C10) -/

/-- C10: when the cursor file exists but its stripped content is not an
integer literal, `get_last_update_id` returns `none` instead of raising; a
missing file also yields `none`. -/
theorem get_last_update_id_corrupt (s : String)
    (h : isIntLiteral s.data = false) :
    get_last_update_id (some s) = none ∧ get_last_update_id none = none := by
  refine ⟨?_, rfl⟩
  simp [get_last_update_id, parsePyInt, h]

/-- Witness for C10 at a concrete corrupted content. -/
theorem get_last_update_id_corrupt_witness :
    get_last_update_id (some "corrupt!") = none ∧ get_last_update_id none = none :=
  get_last_update_id_corrupt "corrupt!" (by decide)

end MovieBot
